import Mathlib

/-
Verification of the OCR reconciliation engine of the ICM-Poker-Research
repository (src/clean_ocr.py), as a shallow embedding in Lean 4.

Modelling conventions:
* Python floats (coordinates, confidences) are modelled as exact rationals;
  every numeric literal appearing in the claims is exactly representable.
* Python unbounded ints are modelled as Nat (all parsed chip values are
  nonnegative).
* Characters are compared by code point (`Char.toNat`); the regex character
  classes of the source are ASCII, matching this model.
* The Python `set` `used_chips` is modelled by the list of indices recorded
  alongside each emitted pair; the lemma `matchTrace_ok` shows these indices
  are pairwise distinct, so the list length equals the set cardinality.
-/

namespace PokerOCR

/-- One raw OCR token: `{"text", "x", "y", "confidence"}`. -/
structure Token where
  text : String
  x : ℚ
  y : ℚ
  confidence : ℚ
deriving DecidableEq

/-- An element of `potential_names` in `extract_players`. -/
structure NameC where
  text : String
  confidence : ℚ
  y : ℚ
  x : ℚ
deriving DecidableEq

/-- An element of `potential_chips` in `extract_players`. -/
structure Chip where
  text : String
  chips : ℕ
  confidence : ℚ
  y : ℚ
  x : ℚ
deriving DecidableEq

/-- One entry of the output `players` list. -/
structure Pair where
  name : String
  chips : ℕ
  confidence : ℚ
deriving DecidableEq

/-- One input JSONL record (absent `raw_text` is modelled as the default `[]`,
exactly as `data.get("raw_text", [])` yields). -/
structure InputRecord where
  filepath : String
  success : Bool
  raw_text : List Token
deriving DecidableEq

/-- One output JSONL record of `process_file`. -/
structure FrameResult where
  filepath : String
  players : List Pair
  total_chips : ℕ
  expected_total : Option ℕ
  is_valid : Option Bool
deriving DecidableEq

/-- Exact rational addition written out on numerators and denominators, so
that concrete frames evaluate by kernel reduction; it equals `+` on ℚ
(`qadd_eq` below). -/
def qadd (a b : ℚ) : ℚ := mkRat (a.num * b.den + b.num * a.den) (a.den * b.den)

/-- Exact rational subtraction; equals `-` on ℚ (`qsub_eq`). -/
def qsub (a b : ℚ) : ℚ := mkRat (a.num * b.den - b.num * a.den) (a.den * b.den)

/-- Exact rational multiplication; equals `*` on ℚ (`qmul_eq`). -/
def qmul (a b : ℚ) : ℚ := mkRat (a.num * b.num) (a.den * b.den)

/-- Absolute value; equals `|.|` on ℚ (`qabs_eq`). -/
def qabs (a : ℚ) : ℚ := if a < 0 then -a else a

/-- The arithmetic mean `(a + b) / 2` of two rationals (`qmean_eq`). -/
def qmean (a b : ℚ) : ℚ := qmul (qadd a b) (mkRat 1 2)

/-- Python `\s` (ASCII): space, tab, newline, carriage return, vertical tab, form feed. -/
def isSpaceChar (c : Char) : Bool :=
  decide (c.toNat = 32 ∨ c.toNat = 9 ∨ c.toNat = 10 ∨ c.toNat = 13 ∨ c.toNat = 11 ∨ c.toNat = 12)

/-- Python `str.strip()`: remove whitespace from both ends. -/
def stripChars (s : List Char) : List Char :=
  ((s.dropWhile isSpaceChar).reverse.dropWhile isSpaceChar).reverse

/-- `[A-Z]`. -/
def isUpperAlpha (c : Char) : Bool :=
  decide (65 ≤ c.toNat ∧ c.toNat ≤ 90)

/-- `[a-z]`. -/
def isLowerAlpha (c : Char) : Bool :=
  decide (97 ≤ c.toNat ∧ c.toNat ≤ 122)

/-- `[A-Za-z]`. -/
def isAlphaChar (c : Char) : Bool :=
  isUpperAlpha c || isLowerAlpha c

/-- `\d` (ASCII digits). -/
def isDigitChar (c : Char) : Bool :=
  decide (48 ≤ c.toNat ∧ c.toNat ≤ 57)

/-- Python ASCII lowercasing of one character. -/
def toLowerChar (c : Char) : Char :=
  if 65 ≤ c.toNat ∧ c.toNat ≤ 90 then Char.ofNat (c.toNat + 32) else c

/-- The module constant `KEYWORDS_TO_FILTER` of clean_ocr.py. -/
def KEYWORDS_TO_FILTER : List String :=
  ["blinds", "ante", "bb ante", "total pot", "main pot", "side pot",
   "dealer", "fold", "check", "call", "raise", "all in",
   "pokergo", "bb", "sb", "play", "morikey", "moikey", "til", "rb"]

/-- The test `text.lower() in KEYWORDS_TO_FILTER`. -/
def isKeyword (s : List Char) : Bool :=
  KEYWORDS_TO_FILTER.contains (String.mk (s.map toLowerChar))

/-- Python `str.isdigit()` (ASCII): nonempty and all digits. -/
def isDigitStr (s : List Char) : Bool :=
  !s.isEmpty && s.all isDigitChar

/-- The class `[A-Z\s\-'.]` (code points 45, 39, 46 are hyphen, apostrophe, period). -/
def upperTailChar (c : Char) : Bool :=
  isUpperAlpha c || isSpaceChar c || decide (c.toNat = 45 ∨ c.toNat = 39 ∨ c.toNat = 46)

/-- The class `[A-Za-z\s\-'.]`. -/
def mixedTailChar (c : Char) : Bool :=
  isAlphaChar c || isSpaceChar c || decide (c.toNat = 45 ∨ c.toNat = 39 ∨ c.toNat = 46)

/-- The regex `^[A-Z][A-Z\s\-'.]{2,}$` of `is_valid_player_name`. -/
def matchesNameUpper (s : List Char) : Bool :=
  match s with
  | [] => false
  | c :: rest => isUpperAlpha c && decide (2 ≤ rest.length) && rest.all upperTailChar

/-- The regex `^[A-Za-z][A-Za-z\s\-'.]{2,}$` of `is_valid_player_name`. -/
def matchesNameMixed (s : List Char) : Bool :=
  match s with
  | [] => false
  | c :: rest => isAlphaChar c && decide (2 ≤ rest.length) && rest.all mixedTailChar

/-- `is_valid_player_name` of clean_ocr.py: either regex, and not `str.isdigit()`. -/
def is_valid_player_name (s : List Char) : Bool :=
  (matchesNameUpper s && !isDigitStr s) || (matchesNameMixed s && !isDigitStr s)

/-- The regex `^[\d,]+$`. -/
def matchesNumericComma (s : List Char) : Bool :=
  !s.isEmpty && s.all (fun c => isDigitChar c || decide (c.toNat = 44))

/-- Multiplier of a magnitude suffix, case-insensitive (`K`=75/107, `M`=77/109, `B`=66/98). -/
def unitMult (c : Char) : Option ℕ :=
  if c.toNat = 75 ∨ c.toNat = 107 then some 1000
  else if c.toNat = 77 ∨ c.toNat = 109 then some 1000000
  else if c.toNat = 66 ∨ c.toNat = 98 then some 1000000000
  else none

/-- Value of a digit string. -/
def digitsVal (s : List Char) : ℕ :=
  s.foldl (fun a c => a * 10 + (c.toNat - 48)) 0

/-- After reading the numeric part `intDigits [. fracDigits]`, consume `\s*` and
one magnitude letter ending the string, and compute
`int(float_value * multiplier)` exactly: the floor of the rational value. -/
def abbrevTail (intDigits fracDigits rest : List Char) : Option ℕ :=
  match rest.dropWhile isSpaceChar with
  | [u] =>
    match unitMult u with
    | some m =>
      some ((digitsVal intDigits * 10 ^ fracDigits.length + digitsVal fracDigits) * m
            / 10 ^ fracDigits.length)
    | none => none
  | _ => none

/-- The regex `^(\d+(?:\.\d+)?)\s*([KMB])$` (IGNORECASE) together with the
conversion of lines 72-85 of clean_ocr.py: `some` exactly when the regex
matches, returning the converted chip count. -/
def parseAbbrev (s : List Char) : Option ℕ :=
  let ds := s.takeWhile isDigitChar
  if ds.isEmpty then none
  else
    match s.drop ds.length with
    | [] => none
    | c :: rest2 =>
      if c.toNat = 46 then
        let fs := rest2.takeWhile isDigitChar
        if fs.isEmpty then none
        else abbrevTail ds fs (rest2.drop fs.length)
      else abbrevTail ds [] (c :: rest2)

/-- `is_numeric_or_abbreviation` of clean_ocr.py. -/
def is_numeric_or_abbreviation (s : List Char) : Bool :=
  matchesNumericComma s || (parseAbbrev s).isSome

/-- Lines 70-98 of clean_ocr.py: abbreviated counts take the first branch,
otherwise `int(text.replace(",", "").replace(".", ""))`, whose `ValueError`
(empty or non-digit remainder) yields `none` (the token is skipped). -/
def parseChip (s : List Char) : Option ℕ :=
  match parseAbbrev s with
  | some n => some n
  | none =>
    let ds := s.filter (fun c => !decide (c.toNat = 44 ∨ c.toNat = 46))
    if ds.isEmpty then none
    else if ds.all isDigitChar then some (digitsVal ds)
    else none

/-- The chip branch of the classification loop of `extract_players` (one token). -/
def toChipCand (t : Token) : Option Chip :=
  let s := stripChars t.text.data
  if s.isEmpty then none
  else if isKeyword s then none
  else if is_numeric_or_abbreviation s then
    match parseChip s with
    | some n => some { text := String.mk s, chips := n, confidence := t.confidence, y := t.y, x := t.x }
    | none => none
  else none

/-- The name branch of the classification loop of `extract_players` (one token). -/
def toNameCand (t : Token) : Option NameC :=
  let s := stripChars t.text.data
  if s.isEmpty then none
  else if isKeyword s then none
  else if is_numeric_or_abbreviation s then none
  else if is_valid_player_name s && decide (2 ≤ s.length) then
    some { text := String.mk s, confidence := t.confidence, y := t.y, x := t.x }
  else none

/-- The confidence filter (line 44): keep tokens with confidence strictly
above `MIN_CONFIDENCE = 0.5`. -/
def confFiltered (tokens : List Token) : List Token :=
  tokens.filter (fun t => decide (mkRat 1 2 < t.confidence))

/-- `potential_names` (in discovery order, before sorting). -/
def nameCandidates (tokens : List Token) : List NameC :=
  (confFiltered tokens).filterMap toNameCand

/-- `potential_chips`. -/
def chipCandidates (tokens : List Token) : List Chip :=
  (confFiltered tokens).filterMap toChipCand

/-- Stable insertion of a name into an already-sorted list, placing it before
the first element with a strictly larger `x` and after all elements with a
smaller-or-equal `x` seen earlier in the recursion. -/
def insertByX (n : NameC) : List NameC → List NameC
  | [] => [n]
  | m :: rest => if m.x < n.x then m :: insertByX n rest else n :: m :: rest

/-- `potential_names.sort(key=lambda x: x["x"])`: Python's stable sort, realised
as a stable insertion sort (stable sorting by a total key is unique). -/
def sortNames : List NameC → List NameC
  | [] => []
  | n :: rest => insertByX n (sortNames rest)

/-- `score = 1.0 * x_distance + 2.0 * y_distance` (lines 146-150). -/
def scoreOf (nx ny : ℚ) (c : Chip) : ℚ :=
  qadd (qmul 1 (qabs (qsub c.x nx))) (qmul 2 (qabs (qsub c.y ny)))

/-- Line 143: the pair is skipped iff `x_distance > 100 or y_distance > 80`. -/
def withinRange (nx ny : ℚ) (c : Chip) : Bool :=
  !(decide (qabs (qsub c.x nx) > 100) || decide (qabs (qsub c.y ny) > 80))

/-- The inner loop of lines 128-154: scan `potential_chips` with running index,
skipping used indices and out-of-range chips, keeping the first strict minimum
of the score (Python starts from `min_score = inf` and updates on `<`). -/
def findBestAux (nx ny : ℚ) (used : List ℕ) :
    List Chip → ℕ → Option (ℕ × Chip × ℚ) → Option (ℕ × Chip × ℚ)
  | [], _, best => best
  | c :: rest, i, best =>
    if i ∈ used then findBestAux nx ny used rest (i + 1) best
    else if withinRange nx ny c then
      match best with
      | none => findBestAux nx ny used rest (i + 1) (some (i, c, scoreOf nx ny c))
      | some b =>
        if scoreOf nx ny c < b.2.2 then
          findBestAux nx ny used rest (i + 1) (some (i, c, scoreOf nx ny c))
        else findBestAux nx ny used rest (i + 1) b
    else findBestAux nx ny used rest (i + 1) best

/-- `best_match` for one name. -/
def findBest (nx ny : ℚ) (used : List ℕ) (chips : List Chip) : Option (ℕ × Chip) :=
  (findBestAux nx ny used chips 0 none).map (fun b => (b.1, b.2.1))

/-- Fused pair (lines 160-164): confidence is the arithmetic mean
`(name_confidence + chip_confidence) / 2`. -/
def mkPair (n : NameC) (c : Chip) : Pair :=
  { name := n.text, chips := c.chips, confidence := qmean n.confidence c.confidence }

/-- The outer loop of lines 119-166.  Each element of the accumulator records an
emitted pair together with the index of the chip candidate it consumed; the
code appends to `players` and adds to `used_chips` in the same branch, so the
two lists grow in lockstep and `acc.map Prod.snd` is exactly `used_chips`. -/
def matchLoop (chips : List Chip) : List NameC → List (Pair × ℕ) → List (Pair × ℕ)
  | [], acc => acc
  | n :: rest, acc =>
    match findBest n.x n.y (acc.map Prod.snd) chips with
    | none => matchLoop chips rest acc
    | some (i, c) =>
      if 0 < c.chips then matchLoop chips rest (acc ++ [(mkPair n c, i)])
      else matchLoop chips rest acc

/-- The full matching trace of one frame. -/
def matchTrace (tokens : List Token) : List (Pair × ℕ) :=
  matchLoop (chipCandidates tokens) (sortNames (nameCandidates tokens)) []

/-- The contents of `used_chips` after the matching loop. -/
def usedIdx (tokens : List Token) : List ℕ :=
  (matchTrace tokens).map Prod.snd

/-- `extract_players` of clean_ocr.py.  The final guard (lines 168-170) drops
the whole frame when some chip candidate was left unconsumed. -/
def extract_players (tokens : List Token) : List Pair :=
  if (confFiltered tokens).isEmpty then []
  else if (usedIdx tokens).length < (chipCandidates tokens).length then []
  else (matchTrace tokens).map Prod.fst

/-- Processing of one input record inside `process_file` (lines 179-196):
`expected_total` and `is_valid` are written as `None`, "to be filled in later
if needed". -/
def processRecord (r : InputRecord) : FrameResult :=
  let players := extract_players r.raw_text
  { filepath := r.filepath
    players := players
    total_chips := (players.map Pair.chips).sum
    expected_total := none
    is_valid := none }

/-- `process_file`: one output record per input record. -/
def process_file (records : List InputRecord) : List FrameResult :=
  records.map processRecord

/-- Invariant carried by the matching loop: the consumed indices are pairwise
distinct, and every emitted pair has positive chips taken from the chip
candidate at its recorded index, which itself has positive chips. -/
def TraceOK (chips : List Chip) (acc : List (Pair × ℕ)) : Prop :=
  (acc.map Prod.snd).Nodup ∧
    ∀ pr ∈ acc, 0 < pr.1.chips ∧ ∃ c, chips.get? pr.2 = some c ∧ 0 < c.chips

/-- The name token of the borderline scenario of the spec (confidence 0.9). -/
def tokNEG : Token := ⟨"NEGREANU", 50, 10, mkRat 9 10⟩

/-- The chip token of the borderline scenario: vertical distance exactly 80,
confidence 0.85. -/
def tokCHIP : Token := ⟨"1,200,000", 55, 90, mkRat 17 20⟩

/-- A token whose text parses to chip value 0. -/
def tokZERO : Token := ⟨"0", 10, 10, mkRat 9 10⟩

/-- A chip token with no name anywhere near it. -/
def tokBIG : Token := ⟨"5,000,000", 10, 10, mkRat 9 10⟩

lemma qadd_eq (a b : ℚ) : qadd a b = a + b := (Rat.add_def' a b).symm

lemma qsub_eq (a b : ℚ) : qsub a b = a - b := (Rat.sub_def' a b).symm

lemma qmul_eq (a b : ℚ) : qmul a b = a * b := by
  conv_rhs => rw [← Rat.mkRat_self a, ← Rat.mkRat_self b, Rat.mkRat_mul_mkRat]
  rfl

lemma qabs_eq (a : ℚ) : qabs a = |a| := by
  unfold qabs
  split
  · exact (abs_of_neg (by assumption)).symm
  · exact (abs_of_nonneg (not_lt.mp (by assumption))).symm

lemma mkRat_one_half : (mkRat 1 2 : ℚ) = 1 / 2 := by
  rw [Rat.mkRat_eq_divInt, Rat.divInt_eq_div]
  norm_num

lemma qmean_eq (a b : ℚ) : qmean a b = (a + b) / 2 := by
  unfold qmean
  rw [qmul_eq, qadd_eq, mkRat_one_half]
  ring

lemma findBestAux_some (nx ny : ℚ) (used : List ℕ) :
    ∀ (cs : List Chip) (i0 : ℕ) (best : Option (ℕ × Chip × ℚ)) (j : ℕ) (c : Chip) (s : ℚ),
      findBestAux nx ny used cs i0 best = some (j, c, s) →
      best = some (j, c, s) ∨ ∃ k, cs.get? k = some c ∧ j = i0 + k ∧ j ∉ used := by
  intro cs
  induction cs with
  | nil =>
    intro i0 best j c s h
    exact Or.inl h
  | cons c0 rest ih =>
    intro i0 best j c s h
    by_cases hmem : i0 ∈ used
    · simp only [findBestAux, if_pos hmem] at h
      rcases ih (i0 + 1) best j c s h with h1 | ⟨k, hk1, hk2, hk3⟩
      · exact Or.inl h1
      · exact Or.inr ⟨k + 1, by simpa using hk1, by omega, hk3⟩
    · by_cases hr : withinRange nx ny c0 = true
      · cases best with
        | none =>
          simp only [findBestAux, if_neg hmem, if_pos hr] at h
          rcases ih (i0 + 1) _ j c s h with h1 | ⟨k, hk1, hk2, hk3⟩
          · simp only [Option.some.injEq, Prod.mk.injEq] at h1
            obtain ⟨rfl, rfl, rfl⟩ := h1
            exact Or.inr ⟨0, rfl, by omega, hmem⟩
          · exact Or.inr ⟨k + 1, by simpa using hk1, by omega, hk3⟩
        | some b =>
          simp only [findBestAux, if_neg hmem, if_pos hr] at h
          by_cases hs : scoreOf nx ny c0 < b.2.2
          · rw [if_pos hs] at h
            rcases ih (i0 + 1) _ j c s h with h1 | ⟨k, hk1, hk2, hk3⟩
            · simp only [Option.some.injEq, Prod.mk.injEq] at h1
              obtain ⟨rfl, rfl, rfl⟩ := h1
              exact Or.inr ⟨0, rfl, by omega, hmem⟩
            · exact Or.inr ⟨k + 1, by simpa using hk1, by omega, hk3⟩
          · rw [if_neg hs] at h
            rcases ih (i0 + 1) _ j c s h with h1 | ⟨k, hk1, hk2, hk3⟩
            · exact Or.inl h1
            · exact Or.inr ⟨k + 1, by simpa using hk1, by omega, hk3⟩
      · simp only [findBestAux, if_neg hmem, if_neg hr] at h
        rcases ih (i0 + 1) best j c s h with h1 | ⟨k, hk1, hk2, hk3⟩
        · exact Or.inl h1
        · exact Or.inr ⟨k + 1, by simpa using hk1, by omega, hk3⟩

lemma findBest_some (nx ny : ℚ) (used : List ℕ) (chips : List Chip) (i : ℕ) (c : Chip)
    (h : findBest nx ny used chips = some (i, c)) :
    chips.get? i = some c ∧ i ∉ used := by
  unfold findBest at h
  rcases haux : findBestAux nx ny used chips 0 none with _ | b
  · rw [haux] at h
    simp at h
  · rw [haux] at h
    simp only [Option.map_some', Option.some.injEq, Prod.mk.injEq] at h
    obtain ⟨h1, h2⟩ := h
    rcases findBestAux_some nx ny used chips 0 none b.1 b.2.1 b.2.2 (by rw [haux]) with
      h3 | ⟨k, hk1, hk2, hk3⟩
    · exact absurd h3 (by simp)
    · constructor
      · rw [← h1, ← h2, hk2]
        simpa using hk1
      · rw [← h1]
        exact hk3

lemma matchLoop_ok (chips : List Chip) :
    ∀ (names : List NameC) (acc : List (Pair × ℕ)),
      TraceOK chips acc → TraceOK chips (matchLoop chips names acc) := by
  intro names
  induction names with
  | nil =>
    intro acc h
    exact h
  | cons n rest ih =>
    intro acc h
    rcases hfb : findBest n.x n.y (acc.map Prod.snd) chips with _ | ic
    · simp only [matchLoop, hfb]
      exact ih acc h
    · obtain ⟨i, c⟩ := ic
      simp only [matchLoop, hfb]
      by_cases hc : 0 < c.chips
      · rw [if_pos hc]
        apply ih
        obtain ⟨hnd, hmem⟩ := h
        obtain ⟨hget, hnotused⟩ := findBest_some _ _ _ _ _ _ hfb
        constructor
        · rw [List.map_append, List.nodup_append]
          refine ⟨hnd, List.nodup_singleton _, ?_⟩
          intro a ha hb
          simp only [List.map_cons, List.map_nil, List.mem_singleton] at hb
          subst hb
          exact hnotused ha
        · intro pr hpr
          rcases List.mem_append.mp hpr with h1 | h1
          · exact hmem pr h1
          · simp only [List.mem_singleton] at h1
            subst h1
            exact ⟨hc, c, hget, hc⟩
      · rw [if_neg hc]
        exact ih acc h

lemma matchTrace_ok (tokens : List Token) :
    TraceOK (chipCandidates tokens) (matchTrace tokens) := by
  apply matchLoop_ok
  exact ⟨List.nodup_nil, fun pr hpr => absurd hpr (List.not_mem_nil pr)⟩

lemma length_lt_of_missing (l : List ℕ) (n i : ℕ) (hnd : l.Nodup)
    (hl : ∀ j ∈ l, j < n) (hi : i < n) (hm : i ∉ l) : l.length < n := by
  have hsub : l.toFinset ⊆ (Finset.range n).erase i := by
    intro j hj
    have hjl : j ∈ l := List.mem_toFinset.mp hj
    refine Finset.mem_erase.mpr ⟨?_, Finset.mem_range.mpr (hl j hjl)⟩
    intro hji
    subst hji
    exact hm hjl
  have h1 : l.toFinset.card = l.length := List.toFinset_card_of_nodup hnd
  have h2 : l.toFinset.card ≤ ((Finset.range n).erase i).card := Finset.card_le_card hsub
  have h3 : ((Finset.range n).erase i).card = n - 1 := by
    rw [Finset.card_erase_of_mem (Finset.mem_range.mpr hi), Finset.card_range]
  omega

lemma unmatched_nil (tokens : List Token) (i : ℕ)
    (h1 : i < (chipCandidates tokens).length) (h2 : i ∉ usedIdx tokens) :
    extract_players tokens = [] := by
  have hok := matchTrace_ok tokens
  have hlen : (usedIdx tokens).length < (chipCandidates tokens).length := by
    refine length_lt_of_missing (usedIdx tokens) ((chipCandidates tokens).length) i
      hok.1 ?_ h1 h2
    intro j hj
    rcases List.mem_map.mp hj with ⟨pr, hpr, hpj⟩
    rcases (hok.2 pr hpr).2 with ⟨c, hc, _⟩
    rcases List.get?_eq_some.mp hc with ⟨hlt, _⟩
    exact hpj ▸ hlt
  by_cases hA : (confFiltered tokens).isEmpty
  · unfold extract_players
    rw [if_pos hA]
  · unfold extract_players
    rw [if_neg hA, if_pos hlen]

lemma mem_extract_trace (tokens : List Token) (p : Pair) (h : p ∈ extract_players tokens) :
    ∃ pr ∈ matchTrace tokens, pr.1 = p := by
  unfold extract_players at h
  split at h
  · exact absurd h (List.not_mem_nil p)
  · split at h
    · exact absurd h (List.not_mem_nil p)
    · rcases List.mem_map.mp h with ⟨pr, hpr, hp⟩
      exact ⟨pr, hpr, hp⟩

/-- C1: for every input frame processed by process_file, the output record's
total_chips field equals the exact integer sum of the chips fields of the
entries in its players list (in particular 0 when players is empty, since the
empty sum is 0). -/
theorem C1_total_chips_is_sum (records : List InputRecord) :
    (process_file records).map FrameResult.total_chips
      = (process_file records).map (fun fr => (fr.players.map Pair.chips).sum) := by
  induction records with
  | nil => rfl
  | cons r rs ih =>
    simp only [process_file, List.map_cons] at ih ⊢
    rw [ih]
    rfl

/-- C2: under the strict validation policy, if after greedy matching any chip
candidate of the frame remains unmatched (its index was not consumed by a
produced pair), extract_players returns an empty players list, discarding
every pair matched in that frame. -/
theorem C2_strict_leftover_drops_frame (tokens : List Token) (i : ℕ)
    (h1 : i < (chipCandidates tokens).length) (h2 : i ∉ usedIdx tokens) :
    extract_players tokens = [] :=
  unmatched_nil tokens i h1 h2

/-- Witness for C2: a frame with one chip candidate and no name leaves chip 0
unmatched and is emptied. -/
theorem C2_strict_leftover_drops_frame_witness :
    0 < (chipCandidates [tokBIG]).length ∧ 0 ∉ usedIdx [tokBIG] ∧
      extract_players [tokBIG] = [] :=
  ⟨by decide, by decide, C2_strict_leftover_drops_frame [tokBIG] 0 (by decide) (by decide)⟩

/-- C3: matching is injective within a frame: the indices of the chip
candidates consumed by the produced pairs are pairwise distinct (each chip
candidate feeds at most one player entry), and a name candidate for which the
best-match search finds no acceptable chip candidate contributes no pair to
the matching loop's output. -/
theorem C3_injective_matching (tokens : List Token) :
    ((matchTrace tokens).map Prod.snd).Nodup ∧
      ∀ (n : NameC) (rest : List NameC) (acc : List (Pair × ℕ)),
        findBest n.x n.y (acc.map Prod.snd) (chipCandidates tokens) = none →
        matchLoop (chipCandidates tokens) (n :: rest) acc
          = matchLoop (chipCandidates tokens) rest acc := by
  refine ⟨(matchTrace_ok tokens).1, ?_⟩
  intro n rest acc hfb
  simp only [matchLoop, hfb]

/-- Witness for C3 at a concrete frame and a concrete matchless name. -/
theorem C3_injective_matching_witness :
    ((matchTrace [tokNEG, tokCHIP]).map Prod.snd).Nodup ∧
      matchLoop (chipCandidates []) [⟨"NOBODY", mkRat 9 10, 0, 0⟩] []
        = matchLoop (chipCandidates []) [] [] :=
  ⟨(C3_injective_matching [tokNEG, tokCHIP]).1,
   (C3_injective_matching []).2 ⟨"NOBODY", mkRat 9 10, 0, 0⟩ [] [] (by decide)⟩

/-- C4: on the frame [NEGREANU at (50,10) conf 0.9, "1,200,000" at (55,90)
conf 0.85] the vertical distance of exactly 80 is accepted (the threshold is
inclusive) and the result is exactly one pair with name NEGREANU, chips
1200000, and confidence the arithmetic mean (9/10 + 17/20)/2 = 7/8 = 0.875. -/
theorem C4_borderline_inclusive_frame :
    extract_players [tokNEG, tokCHIP] = [⟨"NEGREANU", 1200000, mkRat 7 8⟩] ∧
      withinRange 50 10 ⟨"1,200,000", 1200000, mkRat 17 20, 90, 55⟩ = true ∧
      qabs (qsub 90 10) = 80 ∧
      (mkRat 7 8 : ℚ) = ((9 : ℚ)/10 + 17/20) / 2 := by
  refine ⟨by decide, by decide, by decide, ?_⟩
  rw [Rat.mkRat_eq_divInt, Rat.divInt_eq_div]
  norm_num

/-- Counterexample to C5: contrary to the claim, the text "0" is not rejected
by the normalizer: it yields a chip candidate, carrying parsed value 0. -/
theorem C5_zero_is_candidate_counterexample :
    chipCandidates [tokZERO] = [⟨"0", 0, mkRat 9 10, 10, 10⟩] := by decide

/-- C5 amended: the value normalizer maps "2M" to 2000000, "1,234,000" to
1234000, and "1.5K" to 1500; the text "abc" produces no chip candidate; the
text "0" is parsed into a chip candidate of value 0 — zero is excluded only
later, at pair emission, and a zero-valued candidate empties the whole frame
under the strict leftover check. -/
theorem C5_normalizer_amended :
    parseChip "2M".data = some 2000000 ∧
      parseChip "1,234,000".data = some 1234000 ∧
      parseChip "1.5K".data = some 1500 ∧
      chipCandidates [(⟨"abc", 0, 0, mkRat 9 10⟩ : Token)] = [] ∧
      parseChip "0".data = some 0 ∧
      extract_players [tokZERO] = [] :=
  ⟨by decide, by decide, by decide, by decide, by decide, by decide⟩

/-- Counterexample to C6: a batch whose only frame has a non-empty players
list still receives expected_total = none and is_valid = none: process_file
runs no consistency check. -/
theorem C6_no_consistency_check_counterexample :
    (process_file [⟨"f", true, [tokNEG, tokCHIP]⟩]).map FrameResult.players ≠ [[]] ∧
      (process_file [⟨"f", true, [tokNEG, tokCHIP]⟩]).map FrameResult.expected_total
        = [none] ∧
      (process_file [⟨"f", true, [tokNEG, tokCHIP]⟩]).map FrameResult.is_valid
        = [none] :=
  ⟨by decide, by decide, by decide⟩

/-- C6 amended: process_file performs no cross-frame consistency check: every
output record's expected_total and is_valid fields are left absent (None),
regardless of the batch contents; they are placeholders "to be filled in
later if needed". -/
theorem C6_placeholder_fields_amended (records : List InputRecord) :
    (process_file records).map FrameResult.expected_total
        = List.replicate records.length none ∧
      (process_file records).map FrameResult.is_valid
        = List.replicate records.length none := by
  induction records with
  | nil => exact ⟨rfl, rfl⟩
  | cons r rs ih =>
    simp only [process_file, List.map_cons, List.length_cons, List.replicate_succ] at ih ⊢
    exact ⟨by rw [ih.1]; rfl, by rw [ih.2]; rfl⟩

/-- Counterexample to C7: the two-letter purely alphabetic token "AB", with
confidence 0.9 and not blacklisted, is not classified as a name candidate:
both name regexes require at least three characters. -/
theorem C7_two_letter_name_counterexample :
    nameCandidates [(⟨"AB", 0, 0, mkRat 9 10⟩ : Token)] = [] ∧
      (stripChars "AB".data).length = 2 ∧
      (stripChars "AB".data).all isAlphaChar = true ∧
      isKeyword (stripChars "AB".data) = false ∧
      mkRat 1 2 < mkRat 9 10 :=
  ⟨by decide, by decide, by decide, by decide, by decide⟩

/-- C7 amended: every token whose trimmed text starts with a letter followed
by at least two more characters, all of which are letters, whitespace,
hyphens, apostrophes or periods (so at least 3 characters in total), and
which passes the confidence and blacklist checks, is classified as a name
candidate and thus enters the matching stage. -/
theorem C7_name_classification_amended (tokens : List Token) (t : Token)
    (h1 : t ∈ tokens) (h2 : mkRat 1 2 < t.confidence)
    (h3 : matchesNameMixed (stripChars t.text.data) = true)
    (h4 : isKeyword (stripChars t.text.data) = false) :
    (⟨String.mk (stripChars t.text.data), t.confidence, t.y, t.x⟩ : NameC)
      ∈ nameCandidates tokens := by
  refine List.mem_filterMap.mpr ⟨t, List.mem_filter.mpr ⟨h1, by simpa using h2⟩, ?_⟩
  rcases hs : stripChars t.text.data with _ | ⟨c, rest⟩
  · rw [hs] at h3
    exact absurd h3 (by decide)
  · rw [hs] at h3 h4
    simp only [matchesNameMixed, Bool.and_eq_true, decide_eq_true_eq] at h3
    obtain ⟨⟨hca, hlen⟩, htail⟩ := h3
    have hndig : isDigitChar c = false := by
      simp only [isAlphaChar, isUpperAlpha, isLowerAlpha, Bool.or_eq_true,
        decide_eq_true_eq] at hca
      simp only [isDigitChar, decide_eq_false_iff_not]
      omega
    have hcomma : ¬(c.toNat = 44) := by
      simp only [isAlphaChar, isUpperAlpha, isLowerAlpha, Bool.or_eq_true,
        decide_eq_true_eq] at hca
      omega
    have h5 : matchesNumericComma (c :: rest) = false := by
      simp only [matchesNumericComma, List.all_cons, hndig, decide_eq_false hcomma,
        Bool.false_or, Bool.false_and, Bool.and_false]
    have h6 : parseAbbrev (c :: rest) = none := by
      simp [parseAbbrev, List.takeWhile_cons, hndig]
    have hnum : is_numeric_or_abbreviation (c :: rest) = false := by
      simp only [is_numeric_or_abbreviation, h5, h6, Option.isSome_none, Bool.or_self]
    have hdigs : isDigitStr (c :: rest) = false := by
      simp only [isDigitStr, List.all_cons, hndig, Bool.false_and, Bool.and_false]
    have hname : is_valid_player_name (c :: rest) = true := by
      simp only [is_valid_player_name, Bool.or_eq_true]
      refine Or.inr ?_
      simp only [hdigs, Bool.not_false, Bool.and_true, matchesNameMixed,
        Bool.and_eq_true, decide_eq_true_eq]
      exact ⟨⟨hca, hlen⟩, htail⟩
    simp only [toNameCand]
    rw [hs]
    rw [if_neg (by simp)]
    rw [if_neg (by simp [h4])]
    rw [if_neg (by simp [hnum])]
    rw [if_pos (by simp only [hname, Bool.true_and, decide_eq_true_eq, List.length_cons]; omega)]

/-- Witness for C7: the NEGREANU token of the borderline frame is classified
as a name candidate. -/
theorem C7_name_classification_amended_witness :
    (⟨String.mk (stripChars "NEGREANU".data), mkRat 9 10, 10, 50⟩ : NameC)
      ∈ nameCandidates [tokNEG, tokCHIP] :=
  C7_name_classification_amended [tokNEG, tokCHIP] tokNEG (by decide) (by decide)
    (by decide) (by decide)

/-- Counterexample to C8: the success field is never consulted: a record with
success = false but a usable raw_text yields a non-empty players list. -/
theorem C8_success_ignored_counterexample :
    (processRecord ⟨"f", false, [tokNEG, tokCHIP]⟩).players
        = [⟨"NEGREANU", 1200000, mkRat 7 8⟩] ∧
      (⟨"f", false, [tokNEG, tokCHIP]⟩ : InputRecord).success = false :=
  ⟨by decide, rfl⟩

/-- C8 amended: a record whose raw_text field is absent (defaulted to the
empty list) or empty yields an output frame with an empty players list; the
success field is not consulted at all, so changing it never changes the
output record. -/
theorem C8_empty_raw_text_amended (r : InputRecord) (b : Bool) :
    (r.raw_text = [] → (processRecord r).players = []) ∧
      processRecord { r with success := b } = processRecord r := by
  constructor
  · intro h
    show extract_players r.raw_text = []
    rw [h]
    rfl
  · rfl

/-- Witness for C8 at a concrete empty-raw_text record. -/
theorem C8_empty_raw_text_amended_witness :
    (processRecord ⟨"f", true, []⟩).players = [] ∧
      processRecord ⟨"f", false, []⟩ = processRecord ⟨"f", true, []⟩ :=
  ⟨(C8_empty_raw_text_amended ⟨"f", true, []⟩ false).1 rfl,
   (C8_empty_raw_text_amended ⟨"f", true, []⟩ false).2⟩

/-- C9: every entry of the players list returned by extract_players has a
strictly positive chips value; a pair whose chip candidate carries value 0 is
never emitted. -/
theorem C9_positive_chips (tokens : List Token) (p : Pair)
    (h : p ∈ extract_players tokens) : 0 < p.chips := by
  rcases mem_extract_trace tokens p h with ⟨pr, hpr, hp⟩
  have hpos := ((matchTrace_ok tokens).2 pr hpr).1
  rw [← hp]
  exact hpos

/-- Witness for C9 at the borderline frame. -/
theorem C9_positive_chips_witness :
    (⟨"NEGREANU", 1200000, mkRat 7 8⟩ : Pair) ∈ extract_players [tokNEG, tokCHIP] ∧
      0 < (⟨"NEGREANU", 1200000, mkRat 7 8⟩ : Pair).chips :=
  ⟨by decide,
   C9_positive_chips [tokNEG, tokCHIP] ⟨"NEGREANU", 1200000, mkRat 7 8⟩ (by decide)⟩

/-- C10: a frame containing a token that parses to chip value 0 with
confidence strictly above 0.5 always yields an empty players list: the
zero-valued chip candidate is never consumed by any name (pairs require
positive chips), so the strict leftover check discards the entire frame, no
matter how many valid name/chip pairs are present. -/
theorem C10_zero_chip_drops_frame (tokens : List Token) (t : Token) (ch : Chip)
    (h1 : t ∈ tokens) (h2 : mkRat 1 2 < t.confidence)
    (h3 : toChipCand t = some ch) (h4 : ch.chips = 0) :
    extract_players tokens = [] := by
  have htf : t ∈ confFiltered tokens :=
    List.mem_filter.mpr ⟨h1, by simpa using h2⟩
  have hch : ch ∈ chipCandidates tokens := List.mem_filterMap.mpr ⟨t, htf, h3⟩
  rcases List.get?_of_mem hch with ⟨i, hi⟩
  rcases List.get?_eq_some.mp hi with ⟨hlt, _⟩
  have hnm : i ∉ usedIdx tokens := by
    intro hmem
    rcases List.mem_map.mp hmem with ⟨pr, hpr, hpj⟩
    rcases ((matchTrace_ok tokens).2 pr hpr).2 with ⟨c, hc, hpos⟩
    rw [hpj, hi] at hc
    injection hc with hcc
    rw [← hcc] at hpos
    omega
  exact unmatched_nil tokens i hlt hnm

/-- Witness for C10: adding the token "0" to the otherwise valid borderline
frame empties it. -/
theorem C10_zero_chip_drops_frame_witness :
    tokZERO ∈ [tokNEG, tokCHIP, tokZERO] ∧
      mkRat 1 2 < tokZERO.confidence ∧
      toChipCand tokZERO = some ⟨"0", 0, mkRat 9 10, 10, 10⟩ ∧
      extract_players [tokNEG, tokCHIP, tokZERO] = [] :=
  ⟨by decide, by decide, by decide,
   C10_zero_chip_drops_frame [tokNEG, tokCHIP, tokZERO] tokZERO ⟨"0", 0, mkRat 9 10, 10, 10⟩
     (by decide) (by decide) (by decide) rfl⟩

end PokerOCR
